import Mathlib

/-!
Verification development for the `ziptool` archiver (src/main.cpp).

Modelling conventions:
* Filesystem paths are lists of components (`PathC`); absolute paths are taken
  in canonical form (directory-entry names produced by traversal are plain
  components, never `.` or `..`).
* The model world has no symlinks or hard links, so filesystem identity of two
  existing paths (`std::filesystem::equivalent`) is equality of canonical paths.
* Existence of paths probed by the matcher is supplied by a predicate
  `fsEx : PathC → Bool`.
* C++ exceptions are modelled with `Except FsErr`; the throwing overload of
  `std::filesystem::equivalent` reports an error when either side does not
  exist (LWG 2937 semantics, as implemented by libstdc++/libc++).
* Outcomes of OS calls (`zip_open`, `std::filesystem::rename`) are supplied as
  `Bool` inputs; the zip container itself is modelled by the sequence of entry
  names opened in it.
-/

namespace Ziptool

/-- A filesystem path as a list of components. -/
abbrev PathC := List String

/-- Error raised by filesystem primitives (models a thrown
`std::filesystem::filesystem_error`). -/
inductive FsErr where
  | notFound
deriving Repr, DecidableEq

/-- Lexical normalization of an absolute path given by components: models the
purely lexical part of `std::filesystem::weakly_canonical` in a symlink-free
world (`.` removed, `..` pops the previous component, `..` at the root is
dropped). -/
def normalizePath (p : PathC) : PathC :=
  p.foldl (fun acc c =>
    if c = "." then acc
    else if c = ".." then acc.dropLast
    else acc ++ [c]) []

/-- Models `fs::path::lexically_normal` on a relative path: `.` components are
removed, a `..` cancels a preceding plain component, leading `..` components
that cannot be cancelled are kept, and an empty result becomes `.`. -/
def normalizeRelPath (p : PathC) : PathC :=
  let r := p.foldl (fun acc c =>
    if c = "." then acc
    else if c = ".." then
      match acc.getLast? with
      | some l => if l = ".." then acc ++ [c] else acc.dropLast
      | none => acc ++ [c]
    else acc ++ [c]) []
  if r = [] then ["."] else r

/-- Models `fs::path::generic_string`: components joined with forward slashes. -/
def joinPath : PathC → String
  | [] => ""
  | [x] => x
  | x :: xs => x ++ "/" ++ joinPath xs

/-- The test `rel_string.rfind("..", 0) == 0` (src/main.cpp:266): whether the
string begins with the two characters `..`. -/
def dotDotPre (s : String) : Prop := ['.', '.'] <+: s.data

instance (s : String) : Decidable (dotDotPre s) :=
  inferInstanceAs (Decidable (['.', '.'] <+: s.data))

/-- Length of the longest common component prefix of two paths. -/
def commonLen : PathC → PathC → Nat
  | a :: as, b :: bs => if a = b then 1 + commonLen as bs else 0
  | _, _ => 0

/-- Models `fs::path::lexically_relative` for two canonical absolute paths: strip the
common prefix, go up with `..` for each remaining component of the base, then
descend; two equal paths give `.`. -/
def lexRelative (p base : PathC) : PathC :=
  let k := commonLen p base
  let up := List.replicate (base.length - k) ".."
  let rest := p.drop k
  if up ++ rest = [] then ["."] else up ++ rest

/-- Models `std::filesystem::equivalent(p1, p2)` (throwing overload): raises when
either path does not exist, otherwise compares filesystem identity, which in
the symlink-free model is equality of canonical paths. -/
def equivalentE (ex1 ex2 : Bool) (p1 p2 : PathC) : Except FsErr Bool :=
  if ex1 && ex2 then .ok (decide (p1 = p2)) else .error .notFound

/-- Models `std::ranges::any_of` over an exception-throwing predicate: stops at the
first `true`; an exception raised before that propagates. -/
def anyE (f : α → Except FsErr Bool) : List α → Except FsErr Bool
  | [] => .ok false
  | x :: xs =>
    match f x with
    | .error e => .error e
    | .ok true => .ok true
    | .ok false => anyE f xs

/-- Embeds `should_ignore` (src/main.cpp:12-18): for each ignore path, resolve it
against `root_path` with `weakly_canonical` and test filesystem identity with
the candidate; an empty ignore list short-circuits to `false` before any
filesystem access. -/
def should_ignore (fsEx : PathC → Bool) (root_path current_path : PathC)
    (ignore_list : List PathC) : Except FsErr Bool :=
  if ignore_list.isEmpty then .ok false
  else anyE (fun ignore_rel =>
    equivalentE (fsEx current_path) (fsEx (normalizePath (root_path ++ ignore_rel)))
      current_path (normalizePath (root_path ++ ignore_rel))) ignore_list

/-- Embeds `make_ignore_set` (src/main.cpp:20-26): inserts the user-supplied paths
into a `std::set`; the `root_path` argument is not used.  The set is modelled
as the list of distinct paths in first-occurrence order (no claim depends on
the iteration order of `std::set`). -/
def make_ignore_set (root_path : PathC) (ignore_list : List PathC) : List PathC :=
  ignore_list.foldl (fun acc p => if p ∈ acc then acc else acc ++ [p]) []

mutual
/-- A filesystem node below the archived root: a regular file or a directory
(the only kinds the Archive Builder distinguishes). -/
inductive FsTree where
  | file (name : String)
  | dir (name : String) (children : FsForest)
/-- Children of one directory, in traversal order. -/
inductive FsForest where
  | nil
  | cons (t : FsTree) (ts : FsForest)
end

mutual
/-- Absolute paths of all nodes of a tree, the node under `pre`. -/
def nodePaths (pre : PathC) : FsTree → List PathC
  | .file n => [pre ++ [n]]
  | .dir n cs => (pre ++ [n]) :: nodePathsForest (pre ++ [n]) cs
/-- Absolute paths of all nodes of a forest placed under `pre`. -/
def nodePathsForest (pre : PathC) : FsForest → List PathC
  | .nil => []
  | .cons t ts => nodePaths pre t ++ nodePathsForest pre ts
end

mutual
/-- Number of regular files in a tree. -/
def countFiles : FsTree → Nat
  | .file _ => 1
  | .dir _ cs => countFilesForest cs
/-- Number of regular files in a forest. -/
def countFilesForest : FsForest → Nat
  | .nil => 0
  | .cons t ts => countFiles t + countFilesForest ts
end

/-- The inputs of one `compress` invocation that stay fixed during the run. -/
structure Ctx where
  /-- Existence of probed paths (canonical ignore targets). -/
  fsEx : PathC → Bool
  /-- The root directory being archived (`root_path`), canonical absolute. -/
  root : PathC
  /-- The destination archive (`zip_path`), canonical absolute. -/
  zipPath : PathC
  /-- The ignore set, as relative paths (`std::set<fs::path>` contents). -/
  ignoreSet : List PathC
  /-- The `windows_style` flag. -/
  windowsStyle : Bool

/-- Embeds `wrapper_folder` (src/main.cpp:39-42): the root's own folder name plus a
slash when `windows_style` is set, empty otherwise. -/
def wrapperFolder (c : Ctx) : String :=
  if c.windowsStyle then c.root.getLastD "" ++ "/" else ""

/-- Entry name of a regular file at `relDir ++ [n]` below the root
(src/main.cpp:86). -/
def fileEntryName (c : Ctx) (relDir : PathC) (n : String) : String :=
  if c.windowsStyle then wrapperFolder c ++ joinPath (relDir ++ [n])
  else joinPath (relDir ++ [n])

/-- Entry name of a directory at `relDir ++ [n]` below the root, with its
trailing slash (src/main.cpp:100). -/
def dirEntryName (c : Ctx) (relDir : PathC) (n : String) : String :=
  if c.windowsStyle then wrapperFolder c ++ joinPath (relDir ++ [n]) ++ "/"
  else joinPath (relDir ++ [n]) ++ "/"

/-- One extra file handed to `compress`: its canonical source path, the entry
name precomputed by `main`, and whether `fs::exists && fs::is_regular_file`
holds for the source at archiving time. -/
structure ExtraFile where
  src : PathC
  entryName : String
  existsReg : Bool
deriving Repr, DecidableEq

/-- The mutable state of the write pass: the `processed` counter, the entry
names opened in the archive so far, and the percentages delivered to the
progress callback so far. -/
structure St where
  processed : Nat
  entries : List String
  notes : List Nat
deriving Repr, DecidableEq

/-- The progress-notification condition of src/main.cpp:95 and :124
(evaluated after `processed++`). -/
def progressCond (total p : Nat) : Bool :=
  total > 0 && (p % 50 == 0 || p == total)

/-- The conditional `on_progress(processed * 100 / total)` call that follows
`processed++` in both phases (src/main.cpp:95-98 and :124-127). -/
def notifyStep (total : Nat) (st : St) : St :=
  if progressCond total st.processed then
    { st with notes := st.notes ++ [st.processed * 100 / total] }
  else st

mutual
/-- Dry counting pass of `compress` (src/main.cpp:44-59) on one node at
`relDir` below the root: ignored entries are skipped (ignored directories are
pruned), each surviving regular file adds one to `total_files`.  Note that the
dry pass does not compare candidates with the destination archive path. -/
def dryNode (c : Ctx) (relDir : PathC) : FsTree → Except FsErr Nat
  | .file n =>
    match should_ignore c.fsEx c.root (c.root ++ relDir ++ [n]) c.ignoreSet with
    | .error e => .error e
    | .ok true => .ok 0
    | .ok false => .ok 1
  | .dir n cs =>
    match should_ignore c.fsEx c.root (c.root ++ relDir ++ [n]) c.ignoreSet with
    | .error e => .error e
    | .ok true => .ok 0
    | .ok false => dryForest c (relDir ++ [n]) cs
/-- Dry counting pass over the children of one directory, in order. -/
def dryForest (c : Ctx) (relDir : PathC) : FsForest → Except FsErr Nat
  | .nil => .ok 0
  | .cons t ts =>
    match dryNode c relDir t with
    | .error e => .error e
    | .ok a =>
      match dryForest c relDir ts with
      | .error e => .error e
      | .ok b => .ok (a + b)
end

mutual
/-- Live (write) pass of `compress` (src/main.cpp:62-107) on one node:
ignored entries are skipped (ignored directories pruned); a surviving regular
file that is filesystem-identical to the destination archive is skipped
("zip file is exist"); any other file gets an entry, `processed++` and a
conditional progress notification; a surviving directory gets a
trailing-slash entry and is descended into. -/
def liveNode (c : Ctx) (total : Nat) (relDir : PathC) (st : St) : FsTree → Except FsErr St
  | .file n =>
    match should_ignore c.fsEx c.root (c.root ++ relDir ++ [n]) c.ignoreSet with
    | .error e => .error e
    | .ok true => .ok st
    | .ok false =>
      if c.root ++ relDir ++ [n] = c.zipPath then .ok st
      else
        .ok (notifyStep total
          { st with
            entries := st.entries ++ [fileEntryName c relDir n],
            processed := st.processed + 1 })
  | .dir n cs =>
    match should_ignore c.fsEx c.root (c.root ++ relDir ++ [n]) c.ignoreSet with
    | .error e => .error e
    | .ok true => .ok st
    | .ok false =>
      liveForest c total (relDir ++ [n])
        { st with entries := st.entries ++ [dirEntryName c relDir n] } cs
/-- Live pass over the children of one directory, threading the state. -/
def liveForest (c : Ctx) (total : Nat) (relDir : PathC) (st : St) : FsForest → Except FsErr St
  | .nil => .ok st
  | .cons t ts =>
    match liveNode c total relDir st t with
    | .error e => .error e
    | .ok st1 => liveForest c total relDir st1 ts
end

/-- Extra-file phase of `compress` (src/main.cpp:109-128) for one binding:
skipped if the source is gone or not regular, skipped if it is
filesystem-identical to the destination, otherwise the precomputed entry name
is opened, `processed++`, and the conditional notification fires. -/
def extraStep (c : Ctx) (total : Nat) (st : St) (e : ExtraFile) : St :=
  if e.existsReg = false then st
  else if e.src = c.zipPath then st
  else
    notifyStep total
      { st with
        entries := st.entries ++ [e.entryName],
        processed := st.processed + 1 }

/-- The observable outcome of one `compress` call. -/
structure CompressResult where
  /-- `zip_open` returned null and the early return was taken. -/
  openFailed : Bool
  /-- The final value of `total_files`. -/
  total : Nat
  /-- The returned `processed` count. -/
  processed : Nat
  /-- The entry names opened in the archive, in order. -/
  entries : List String
  /-- The percentages delivered to `on_progress`, in order. -/
  notes : List Nat
deriving Repr, DecidableEq

/-- Embeds `compress` (src/main.cpp:28-131): on `zip_open` failure print and return
0; otherwise run the dry pass to fix `total_files` (starting from
`extra_files.size()`), then the live pass, then the extra-file phase, and
return `processed`. -/
def compress (c : Ctx) (zipOpenOk : Bool) (tree : FsForest)
    (extras : List ExtraFile) : Except FsErr CompressResult :=
  if zipOpenOk = false then .ok ⟨true, 0, 0, [], []⟩
  else
    match dryForest c [] tree with
    | .error e => .error e
    | .ok nTree =>
      let total := extras.length + nTree
      match liveForest c total [] ⟨0, [], []⟩ tree with
      | .error e => .error e
      | .ok st =>
        let st := extras.foldl (extraStep c total) st
        .ok ⟨false, total, st.processed, st.entries, st.notes⟩

/-- Entry-name computation for one extra file (src/main.cpp:258-271): on a
`fs::relative` error take the bare filename; otherwise normalize the relative
path; if its generic string is empty or starts with `..`, take the bare
filename, else the generic string itself. -/
def extraEntryName (cwd absolute : PathC) (relErr : Bool) : String :=
  if relErr then joinPath [absolute.getLastD ""]
  else
    let normalized := normalizeRelPath (lexRelative absolute cwd)
    let relString := joinPath normalized
    if relString = "" ∨ dotDotPre relString then joinPath [absolute.getLastD ""]
    else relString

/-- The observable outcome of the `zip` subcommand branch of `main`. -/
structure ZipRunResult where
  /-- The process exit status. -/
  exitCode : Int
  /-- Whether the final completion line was printed. -/
  completionPrinted : Bool
  /-- The result of the `compress` call, when it was reached. -/
  build : Option CompressResult
deriving Repr, DecidableEq

/-- The `zip` branch of `main` (src/main.cpp:233-282), after input validation
has bound the extras: if the root is missing, print and exit -1; otherwise
call `compress` and unconditionally print the completion line and exit 0. -/
def zipRun (c : Ctx) (rootExists zipOpenOk : Bool) (tree : FsForest)
    (extras : List ExtraFile) : Except FsErr ZipRunResult :=
  if rootExists = false then .ok ⟨-1, false, none⟩
  else
    match compress c zipOpenOk tree extras with
    | .error e => .error e
    | .ok r => .ok ⟨0, true, some r⟩

/-- Inputs of one `rename-zip` run that the OS decides. -/
structure RzParams where
  /-- `fs::exists(original_path)`. -/
  originalExists : Bool
  /-- `fs::is_directory(original_path)`. -/
  originalIsDir : Bool
  /-- The requested new directory name (`rz_new_name`). -/
  newName : String
  /-- `fs::exists(renamed_path)` before renaming. -/
  renamedTargetExists : Bool
  /-- Whether the rename to the new name succeeds. -/
  renameOk : Bool
  /-- Whether the restoring rename back to the original name succeeds. -/
  restoreOk : Bool
  /-- Whether `zip_open` succeeds for `<new-name>.zip`. -/
  zipOpenOk : Bool
  /-- The `windows_style` flag (`-w`). -/
  windowsStyle : Bool
  /-- The contents of the directory being renamed and archived. -/
  tree : FsForest

/-- The observable outcome of the `rename-zip` branch of `main`. -/
structure RzResult where
  /-- The process exit status. -/
  exitCode : Int
  /-- Whether the restoring rename was attempted at all. -/
  restoreAttempted : Bool
  /-- Whether the directory is back under its original name. -/
  restored : Bool
  /-- Whether the manual-remediation warning was printed. -/
  warningPrinted : Bool
  /-- Whether the final completion line was printed. -/
  completionPrinted : Bool
  /-- The `processed` count reported by the completion line. -/
  processed : Nat
  /-- Whether the directory is left under the new name. -/
  dirUnderNewName : Bool
deriving Repr, DecidableEq

/-- The validity check on the new name (src/main.cpp:185): non-empty and free
of `\`, `/` and `:` (the `find_first_of` test, expressed over the
characters). -/
def newNameValid (s : String) : Bool :=
  !(s == "" || s.data.any (fun ch => ch == '\\' || ch == '/' || ch == ':'))

/-- The `rename-zip` branch of `main` (src/main.cpp:174-230): validate, rename
the directory to the new name, archive it into `<new-name>.zip` with empty
ignore and extra lists, then run `restore()` — attempt the rename back,
printing the manual-remediation warning if it fails — and print the completion
line and exit 0.  An exception escaping `compress` would crash the process
before `restore()` (there is no scope guard), which the `Except` propagation
mirrors. -/
def renameZipRun (fsEx : PathC → Bool) (cwd dirArg : PathC) (p : RzParams) :
    Except FsErr RzResult :=
  let originalPath := normalizePath (cwd ++ dirArg)
  let parent := originalPath.dropLast
  let renamedPath := parent ++ [p.newName]
  let zipPath := cwd ++ [p.newName ++ ".zip"]
  if p.originalExists = false then .ok ⟨-1, false, false, false, false, 0, false⟩
  else if p.originalIsDir = false then .ok ⟨-1, false, false, false, false, 0, false⟩
  else if newNameValid p.newName = false then .ok ⟨-1, false, false, false, false, 0, false⟩
  else if p.renamedTargetExists then .ok ⟨-1, false, false, false, false, 0, false⟩
  else if p.renameOk = false then .ok ⟨-1, false, false, false, false, 0, false⟩
  else
    match compress ⟨fsEx, renamedPath, zipPath, [], p.windowsStyle⟩ p.zipOpenOk p.tree [] with
    | .error e => .error e
    | .ok r =>
      .ok ⟨0, true, p.restoreOk, !p.restoreOk, true, r.processed, !p.restoreOk⟩

mutual
/-- Claim-side description (spec §8, claim C2): exactly one archive entry per
node, in pre-order, directories with a trailing slash, names being the
root-relative paths joined with forward slashes. -/
def specEntries (relDir : PathC) : FsTree → List String
  | .file n => [joinPath (relDir ++ [n])]
  | .dir n cs => (joinPath (relDir ++ [n]) ++ "/") :: specEntriesForest (relDir ++ [n]) cs
/-- Claim-side entry listing over a forest. -/
def specEntriesForest (relDir : PathC) : FsForest → List String
  | .nil => []
  | .cons t ts => specEntries relDir t ++ specEntriesForest relDir ts
end

mutual
/-- Pure characterization of the live pass on one node: the entry names it
opens and the number of files it archives (its `processed` increment). -/
def namesNode (c : Ctx) (relDir : PathC) : FsTree → Except FsErr (List String × Nat)
  | .file n =>
    match should_ignore c.fsEx c.root (c.root ++ relDir ++ [n]) c.ignoreSet with
    | .error e => .error e
    | .ok true => .ok ([], 0)
    | .ok false =>
      if c.root ++ relDir ++ [n] = c.zipPath then .ok ([], 0)
      else .ok ([fileEntryName c relDir n], 1)
  | .dir n cs =>
    match should_ignore c.fsEx c.root (c.root ++ relDir ++ [n]) c.ignoreSet with
    | .error e => .error e
    | .ok true => .ok ([], 0)
    | .ok false =>
      match namesForest c (relDir ++ [n]) cs with
      | .error e => .error e
      | .ok (ns, k) => .ok (dirEntryName c relDir n :: ns, k)
/-- Pure characterization of the live pass over a forest. -/
def namesForest (c : Ctx) (relDir : PathC) : FsForest → Except FsErr (List String × Nat)
  | .nil => .ok ([], 0)
  | .cons t ts =>
    match namesNode c relDir t with
    | .error e => .error e
    | .ok (ns1, k1) =>
      match namesForest c relDir ts with
      | .error e => .error e
      | .ok (ns2, k2) => .ok (ns1 ++ ns2, k1 + k2)
end

/-- The percentages delivered while `processed` runs from `p0 + 1` to
`p0 + k` against a fixed `total`: one notification for each value satisfying
the progress condition. -/
def noteSeq (total p0 k : Nat) : List Nat :=
  ((List.range' (p0 + 1) k).filter (progressCond total)).map (fun p => p * 100 / total)

/-- Whether the extra-file phase actually archives this binding: source still
a regular file and not filesystem-identical to the destination. -/
def extraSurvives (c : Ctx) (e : ExtraFile) : Bool :=
  e.existsReg && !(decide (e.src = c.zipPath))

/-- The entry names the extra-file phase opens, in order: the precomputed
names of the surviving bindings, verbatim. -/
def extraNames (c : Ctx) (extras : List ExtraFile) : List String :=
  (extras.filter (extraSurvives c)).map (·.entryName)

/-- The number of extra files archived. -/
def extraCount (c : Ctx) (extras : List ExtraFile) : Nat :=
  (extras.filter (extraSurvives c)).length

mutual
/-- Spec-worded eligible-file count without destination exclusion: regular
files that survive ignore-filtering (directories prune their subtree), with
ignore status supplied by the oracle `ign` on absolute paths. -/
def eligibleNoZip (ign : PathC → Bool) (abs : PathC) : FsTree → Nat
  | .file n => if ign (abs ++ [n]) then 0 else 1
  | .dir n cs => if ign (abs ++ [n]) then 0 else eligibleNoZipForest ign (abs ++ [n]) cs
/-- Count `eligibleNoZip` over a forest. -/
def eligibleNoZipForest (ign : PathC → Bool) (abs : PathC) : FsForest → Nat
  | .nil => 0
  | .cons t ts => eligibleNoZip ign abs t + eligibleNoZipForest ign abs ts
end

mutual
/-- Claim-worded eligible-file count (claim C3): regular files that survive
ignore-filtering and are not filesystem-identical to the destination archive
path `zp`. -/
def eligibleZip (ign : PathC → Bool) (zp abs : PathC) : FsTree → Nat
  | .file n =>
    if ign (abs ++ [n]) then 0 else if abs ++ [n] = zp then 0 else 1
  | .dir n cs => if ign (abs ++ [n]) then 0 else eligibleZipForest ign zp (abs ++ [n]) cs
/-- Count `eligibleZip` over a forest. -/
def eligibleZipForest (ign : PathC → Bool) (zp abs : PathC) : FsForest → Nat
  | .nil => 0
  | .cons t ts => eligibleZip ign zp abs t + eligibleZipForest ign zp abs ts
end

mutual
/-- The value of `namesNode` when the ignore set is empty (no filesystem
errors possible): every directory gets its entry, every file not identical to
the destination gets its entry and counts once. -/
def pureNames (c : Ctx) (relDir : PathC) : FsTree → List String × Nat
  | .file n =>
    if c.root ++ relDir ++ [n] = c.zipPath then ([], 0)
    else ([fileEntryName c relDir n], 1)
  | .dir n cs =>
    let p := pureNamesForest c (relDir ++ [n]) cs
    (dirEntryName c relDir n :: p.1, p.2)
/-- Computation `pureNames` over a forest. -/
def pureNamesForest (c : Ctx) (relDir : PathC) : FsForest → List String × Nat
  | .nil => ([], 0)
  | .cons t ts =>
    let p1 := pureNames c relDir t
    let p2 := pureNamesForest c relDir ts
    (p1.1 ++ p2.1, p1.2 + p2.2)
end

/-- Claim-side matcher for C4: each ignore path resolved against the
invocation directory `cwd`, a candidate excluded exactly when it is
filesystem-identical to one of the resolved targets. -/
def claimIgnoreMatch (fsEx : PathC → Bool) (cwd cand : PathC) (lst : List PathC) : Bool :=
  lst.any (fun rel =>
    fsEx cand && fsEx (normalizePath (cwd ++ rel)) && decide (cand = normalizePath (cwd ++ rel)))

/-- Claim-side name computation for C7 as stated: the relative path is used
whenever it exists (`fs::relative` did not fail) and does not escape upward
(its first component is not `..`); otherwise the bare filename. -/
def claimedExtraEntryName (cwd absolute : PathC) (relErr : Bool) : String :=
  if relErr then joinPath [absolute.getLastD ""]
  else
    let normalized := normalizeRelPath (lexRelative absolute cwd)
    if normalized.headD "" = ".." then joinPath [absolute.getLastD ""]
    else joinPath normalized

/-- A flat directory with `k` regular files named `0`, `1`, …, `k-1`. -/
def manyFiles : Nat → FsForest
  | 0 => .nil
  | k + 1 => .cons (.file (toString k)) (manyFiles k)

/-! ### Helper lemmas -/

theorem should_ignore_nil (fsEx : PathC → Bool) (root cur : PathC) :
    should_ignore fsEx root cur [] = .ok false := rfl

theorem noteSeq_zero (total p0 : Nat) : noteSeq total p0 0 = [] := rfl

theorem noteSeq_one (total p0 : Nat) :
    noteSeq total p0 1 =
      if progressCond total (p0 + 1) then [(p0 + 1) * 100 / total] else [] := by
  by_cases h : progressCond total (p0 + 1) <;>
    simp [noteSeq, List.range'_one, List.filter_cons, h]

theorem noteSeq_append (total p0 k1 k2 : Nat) :
    noteSeq total p0 (k1 + k2) = noteSeq total p0 k1 ++ noteSeq total (p0 + k1) k2 := by
  have h : p0 + k1 + 1 = p0 + 1 + k1 := by omega
  simp only [noteSeq, h, List.range'_append_1, ← List.filter_append, ← List.map_append]
  rw [Nat.add_comm k2 k1]

theorem noteSeq_total_zero (p0 k : Nat) : noteSeq 0 p0 k = [] := by
  simp [noteSeq, progressCond]

mutual
/-- The live pass on a node is the pure name/count computation threaded
through the state: entries and notifications are appended, `processed` is
incremented by the file count. -/
theorem liveNode_decomp (c : Ctx) (total : Nat) :
    (t : FsTree) → ∀ (relDir : PathC) (st : St),
      liveNode c total relDir st t =
        (match namesNode c relDir t with
         | .error e => .error e
         | .ok p => .ok ⟨st.processed + p.2, st.entries ++ p.1,
                         st.notes ++ noteSeq total st.processed p.2⟩)
  | .file n => fun relDir st => by
    simp only [liveNode, namesNode]
    cases h : should_ignore c.fsEx c.root (c.root ++ relDir ++ [n]) c.ignoreSet with
    | error e => rfl
    | ok b =>
      cases b with
      | true => simp [noteSeq_zero]
      | false =>
        by_cases hz : c.root ++ relDir ++ [n] = c.zipPath
        · simp [hz, noteSeq_zero]
        · simp only [if_neg hz]
          by_cases hp : progressCond total (st.processed + 1) <;>
            simp [notifyStep, noteSeq_one, hp]
  | .dir n cs => fun relDir st => by
    simp only [liveNode, namesNode]
    cases h : should_ignore c.fsEx c.root (c.root ++ relDir ++ [n]) c.ignoreSet with
    | error e => rfl
    | ok b =>
      cases b with
      | true => simp [noteSeq_zero]
      | false =>
        rw [liveForest_decomp c total cs (relDir ++ [n])
          { st with entries := st.entries ++ [dirEntryName c relDir n] }]
        cases hf : namesForest c (relDir ++ [n]) cs with
        | error e => rfl
        | ok p => simp
/-- Lemma `liveNode_decomp` over a forest. -/
theorem liveForest_decomp (c : Ctx) (total : Nat) :
    (ts : FsForest) → ∀ (relDir : PathC) (st : St),
      liveForest c total relDir st ts =
        (match namesForest c relDir ts with
         | .error e => .error e
         | .ok p => .ok ⟨st.processed + p.2, st.entries ++ p.1,
                         st.notes ++ noteSeq total st.processed p.2⟩)
  | .nil => fun relDir st => by simp [liveForest, namesForest, noteSeq_zero]
  | .cons t ts => fun relDir st => by
    simp only [liveForest, namesForest]
    rw [liveNode_decomp c total t relDir st]
    cases hn : namesNode c relDir t with
    | error e => rfl
    | ok p1 =>
      simp only []
      rw [liveForest_decomp c total ts relDir
        ⟨st.processed + p1.2, st.entries ++ p1.1, st.notes ++ noteSeq total st.processed p1.2⟩]
      cases hf : namesForest c relDir ts with
      | error e => rfl
      | ok p2 => simp [noteSeq_append, List.append_assoc, Nat.add_assoc]
end

mutual
/-- With an empty ignore set the dry pass cannot fail and counts every
regular file of the node. -/
theorem dryNode_nil (c : Ctx) (h : c.ignoreSet = []) :
    (t : FsTree) → ∀ relDir, dryNode c relDir t = .ok (countFiles t)
  | .file n => fun relDir => by
    simp [dryNode, countFiles, h, should_ignore_nil]
  | .dir n cs => fun relDir => by
    simp [dryNode, countFiles, h, should_ignore_nil, dryForest_nil c h cs (relDir ++ [n])]
/-- Lemma `dryNode_nil` over a forest. -/
theorem dryForest_nil (c : Ctx) (h : c.ignoreSet = []) :
    (ts : FsForest) → ∀ relDir, dryForest c relDir ts = .ok (countFilesForest ts)
  | .nil => fun relDir => rfl
  | .cons t ts => fun relDir => by
    simp [dryForest, countFilesForest, dryNode_nil c h t relDir, dryForest_nil c h ts relDir]
end

mutual
/-- With an empty ignore set the live-pass characterization cannot fail and
equals the pure name/count computation. -/
theorem namesNode_nil (c : Ctx) (h : c.ignoreSet = []) :
    (t : FsTree) → ∀ relDir, namesNode c relDir t = .ok (pureNames c relDir t)
  | .file n => fun relDir => by
    by_cases hz : c.root ++ (relDir ++ [n]) = c.zipPath <;>
      simp [namesNode, pureNames, h, should_ignore_nil, hz]
  | .dir n cs => fun relDir => by
    simp [namesNode, pureNames, h, should_ignore_nil,
      namesForest_nil c h cs (relDir ++ [n])]
/-- Lemma `namesNode_nil` over a forest. -/
theorem namesForest_nil (c : Ctx) (h : c.ignoreSet = []) :
    (ts : FsForest) → ∀ relDir, namesForest c relDir ts = .ok (pureNamesForest c relDir ts)
  | .nil => fun relDir => rfl
  | .cons t ts => fun relDir => by
    simp [namesForest, pureNamesForest, namesNode_nil c h t relDir,
      namesForest_nil c h ts relDir]
end

/-- The extra-file phase is the pure surviving-names computation threaded
through the state. -/
theorem extraFold_decomp (c : Ctx) (total : Nat) :
    (extras : List ExtraFile) → ∀ st : St,
      extras.foldl (extraStep c total) st =
        ⟨st.processed + extraCount c extras, st.entries ++ extraNames c extras,
         st.notes ++ noteSeq total st.processed (extraCount c extras)⟩
  | [] => fun st => by simp [extraCount, extraNames, noteSeq_zero]
  | e :: es => fun st => by
    rw [List.foldl_cons, extraFold_decomp c total es (extraStep c total st e)]
    by_cases h1 : e.existsReg = false
    · simp [extraStep, extraNames, extraCount, extraSurvives, List.filter_cons, h1]
    · rw [Bool.not_eq_false] at h1
      by_cases h2 : e.src = c.zipPath
      · simp [extraStep, extraNames, extraCount, extraSurvives, List.filter_cons, h1, h2]
      · have hs : extraSurvives c e = true := by simp [extraSurvives, h1, h2]
        have hcnt : extraCount c (e :: es) = 1 + extraCount c es := by
          simp [extraCount, List.filter_cons, hs, Nat.add_comm]
        have hnm : extraNames c (e :: es) = e.entryName :: extraNames c es := by
          simp [extraNames, List.filter_cons, hs]
        rw [hcnt, hnm, noteSeq_append total st.processed 1 (extraCount c es)]
        by_cases hp : progressCond total (st.processed + 1) <;>
          simp [extraStep, h1, h2, notifyStep, noteSeq_one, hp, List.append_assoc,
            Nat.add_assoc, Nat.add_comm 1 (extraCount c es)]

/-- Lemma: `compress` with a successful open: the archive contents, the processed
count, the fixed total and the notification sequence, from the pure
characterizations of the passes. -/
theorem compress_ok (c : Ctx) (tree : FsForest) (extras : List ExtraFile)
    (n : Nat) (p : List String × Nat)
    (h1 : dryForest c [] tree = .ok n) (h2 : namesForest c [] tree = .ok p) :
    compress c true tree extras =
      .ok ⟨false, extras.length + n, p.2 + extraCount c extras,
           p.1 ++ extraNames c extras,
           noteSeq (extras.length + n) 0 (p.2 + extraCount c extras)⟩ := by
  simp only [compress, h1]
  rw [liveForest_decomp c (extras.length + n) tree [] ⟨0, [], []⟩, h2]
  simp only []
  rw [extraFold_decomp c (extras.length + n) extras
    ⟨0 + p.2, [] ++ p.1, [] ++ noteSeq (extras.length + n) 0 p.2⟩]
  simp [noteSeq_append, List.append_assoc]

mutual
/-- The live pass archives at most as many files from a node as the dry pass
counted (it additionally skips files identical to the destination). -/
theorem namesNode_count_le (c : Ctx) :
    (t : FsTree) → ∀ relDir n p, dryNode c relDir t = .ok n →
      namesNode c relDir t = .ok p → p.2 ≤ n
  | .file nm => fun relDir n p h1 h2 => by
    simp only [dryNode, namesNode] at h1 h2
    cases hsi : should_ignore c.fsEx c.root (c.root ++ relDir ++ [nm]) c.ignoreSet with
    | error e => rw [hsi] at h1; cases h1
    | ok b =>
      rw [hsi] at h1 h2
      cases b with
      | true =>
        cases h1; cases h2; simp
      | false =>
        cases h1
        by_cases hz : c.root ++ relDir ++ [nm] = c.zipPath
        · rw [if_pos hz] at h2; cases h2; simp
        · rw [if_neg hz] at h2; cases h2; simp
  | .dir nm cs => fun relDir n p h1 h2 => by
    simp only [dryNode, namesNode] at h1 h2
    cases hsi : should_ignore c.fsEx c.root (c.root ++ relDir ++ [nm]) c.ignoreSet with
    | error e => rw [hsi] at h1; cases h1
    | ok b =>
      rw [hsi] at h1 h2
      cases b with
      | true => cases h1; cases h2; simp
      | false =>
        cases hnf : namesForest c (relDir ++ [nm]) cs with
        | error e => rw [hnf] at h2; cases h2
        | ok q =>
          rw [hnf] at h2
          cases h2
          simpa using namesForest_count_le c cs (relDir ++ [nm]) n q h1 hnf
/-- Lemma `namesNode_count_le` over a forest. -/
theorem namesForest_count_le (c : Ctx) :
    (ts : FsForest) → ∀ relDir n p, dryForest c relDir ts = .ok n →
      namesForest c relDir ts = .ok p → p.2 ≤ n
  | .nil => fun relDir n p h1 h2 => by
    cases h1; cases h2; simp
  | .cons t ts => fun relDir n p h1 h2 => by
    simp only [dryForest, namesForest] at h1 h2
    cases hd : dryNode c relDir t with
    | error e => rw [hd] at h1; cases h1
    | ok a =>
      rw [hd] at h1
      cases hdf : dryForest c relDir ts with
      | error e => rw [hdf] at h1; cases h1
      | ok b =>
        rw [hdf] at h1
        cases hn : namesNode c relDir t with
        | error e => rw [hn] at h2; cases h2
        | ok p1 =>
          rw [hn] at h2
          cases hf : namesForest c relDir ts with
          | error e => rw [hf] at h2; cases h2
          | ok p2 =>
            rw [hf] at h2
            cases h1; cases h2
            have ha := namesNode_count_le c t relDir a p1 hd hn
            have hb := namesForest_count_le c ts relDir b p2 hdf hf
            simpa using Nat.add_le_add ha hb
end

mutual
/-- Windows-style naming on a node: identical skipping and counting, every
entry name prefixed with the root's folder name and a slash. -/
theorem namesNode_windows (c : Ctx) :
    (t : FsTree) → ∀ relDir,
      namesNode { c with windowsStyle := true } relDir t =
        (namesNode { c with windowsStyle := false } relDir t).map
          (fun p => (p.1.map (fun s => c.root.getLastD "" ++ "/" ++ s), p.2))
  | .file n => fun relDir => by
    simp only [namesNode]
    cases hsi : should_ignore c.fsEx c.root (c.root ++ relDir ++ [n]) c.ignoreSet with
    | error e => rfl
    | ok b =>
      cases b with
      | true => rfl
      | false =>
        by_cases hz : c.root ++ (relDir ++ [n]) = c.zipPath <;>
          simp [hz, fileEntryName, wrapperFolder, Except.map]
  | .dir n cs => fun relDir => by
    simp only [namesNode]
    cases hsi : should_ignore c.fsEx c.root (c.root ++ relDir ++ [n]) c.ignoreSet with
    | error e => rfl
    | ok b =>
      cases b with
      | true => rfl
      | false =>
        rw [namesForest_windows c cs (relDir ++ [n])]
        cases hf : namesForest { c with windowsStyle := false } (relDir ++ [n]) cs with
        | error e => rfl
        | ok q => simp [dirEntryName, wrapperFolder, String.append_assoc, Except.map]
/-- Lemma `namesNode_windows` over a forest. -/
theorem namesForest_windows (c : Ctx) :
    (ts : FsForest) → ∀ relDir,
      namesForest { c with windowsStyle := true } relDir ts =
        (namesForest { c with windowsStyle := false } relDir ts).map
          (fun p => (p.1.map (fun s => c.root.getLastD "" ++ "/" ++ s), p.2))
  | .nil => fun relDir => rfl
  | .cons t ts => fun relDir => by
    simp only [namesForest]
    rw [namesNode_windows c t relDir, namesForest_windows c ts relDir]
    cases hn : namesNode { c with windowsStyle := false } relDir t with
    | error e => rfl
    | ok p1 =>
      cases hf : namesForest { c with windowsStyle := false } relDir ts with
      | error e => rfl
      | ok p2 => simp [Except.map]
end

mutual
/-- With no ignored or destination-identical nodes and `windows_style` off,
the pure names of a node are exactly the claim-side entry list and its file
count. -/
theorem pureNames_spec (c : Ctx) (hw : c.windowsStyle = false) :
    (t : FsTree) → ∀ relDir,
      (∀ q ∈ nodePaths (c.root ++ relDir) t, q ≠ c.zipPath) →
      pureNames c relDir t = (specEntries relDir t, countFiles t)
  | .file n => fun relDir hq => by
    have hz : c.root ++ (relDir ++ [n]) ≠ c.zipPath := by
      rw [← List.append_assoc]
      exact hq _ (by simp [nodePaths])
    simp [pureNames, specEntries, countFiles, hz, fileEntryName, hw]
  | .dir n cs => fun relDir hq => by
    have hsub : ∀ q ∈ nodePathsForest (c.root ++ (relDir ++ [n])) cs, q ≠ c.zipPath := by
      intro q hqm
      apply hq
      simp only [nodePaths, List.mem_cons, List.append_assoc]
      exact Or.inr (by simpa [List.append_assoc] using hqm)
    have ih := pureNamesForest_spec c hw cs (relDir ++ [n]) hsub
    simp [pureNames, specEntries, countFiles, dirEntryName, hw, ih]
/-- Lemma `pureNames_spec` over a forest. -/
theorem pureNamesForest_spec (c : Ctx) (hw : c.windowsStyle = false) :
    (ts : FsForest) → ∀ relDir,
      (∀ q ∈ nodePathsForest (c.root ++ relDir) ts, q ≠ c.zipPath) →
      pureNamesForest c relDir ts = (specEntriesForest relDir ts, countFilesForest ts)
  | .nil => fun relDir _ => rfl
  | .cons t ts => fun relDir hq => by
    have h1 := pureNames_spec c hw t relDir
      (fun q hqm => hq q (by simp only [nodePathsForest, List.mem_append]; exact Or.inl hqm))
    have h2 := pureNamesForest_spec c hw ts relDir
      (fun q hqm => hq q (by simp only [nodePathsForest, List.mem_append]; exact Or.inr hqm))
    simp [pureNamesForest, specEntriesForest, countFilesForest, h1, h2]
end

mutual
/-- When the matcher agrees with the pure oracle `ign`, the dry pass counts
exactly the spec-worded eligible files (with no destination exclusion). -/
theorem dryNode_oracle (c : Ctx) (ign : PathC → Bool)
    (hOr : ∀ q, should_ignore c.fsEx c.root q c.ignoreSet = .ok (ign q)) :
    (t : FsTree) → ∀ relDir,
      dryNode c relDir t = .ok (eligibleNoZip ign (c.root ++ relDir) t)
  | .file n => fun relDir => by
    rw [dryNode, hOr]
    simp only [List.append_assoc]
    cases hi : ign (c.root ++ (relDir ++ [n])) <;>
      simp [eligibleNoZip, hi, List.append_assoc]
  | .dir n cs => fun relDir => by
    rw [dryNode, hOr]
    simp only [List.append_assoc]
    cases hi : ign (c.root ++ (relDir ++ [n])) with
    | false =>
      have ih := dryForest_oracle c ign hOr cs (relDir ++ [n])
      simp [eligibleNoZip, hi, ih, List.append_assoc]
    | true => simp [eligibleNoZip, hi, List.append_assoc]
/-- Lemma `dryNode_oracle` over a forest. -/
theorem dryForest_oracle (c : Ctx) (ign : PathC → Bool)
    (hOr : ∀ q, should_ignore c.fsEx c.root q c.ignoreSet = .ok (ign q)) :
    (ts : FsForest) → ∀ relDir,
      dryForest c relDir ts = .ok (eligibleNoZipForest ign (c.root ++ relDir) ts)
  | .nil => fun relDir => rfl
  | .cons t ts => fun relDir => by
    rw [dryForest, dryNode_oracle c ign hOr t relDir, dryForest_oracle c ign hOr ts relDir]
    simp [eligibleNoZipForest]
end

/-- Lemma: `any_of` over existing targets: no exception, and the result is exactly
"the candidate equals one of the resolved targets". -/
theorem anyE_exists_all (fsEx : PathC → Bool) (root cur : PathC) :
    (lst : List PathC) → (∀ rel ∈ lst, fsEx (normalizePath (root ++ rel)) = true) →
      fsEx cur = true →
      anyE (fun ignore_rel =>
        equivalentE (fsEx cur) (fsEx (normalizePath (root ++ ignore_rel)))
          cur (normalizePath (root ++ ignore_rel))) lst
        = .ok (lst.any (fun rel => decide (cur = normalizePath (root ++ rel))))
  | [] => fun _ _ => rfl
  | rel :: rest => fun hall hcur => by
    have h1 : fsEx (normalizePath (root ++ rel)) = true := hall rel (by simp)
    have hrest := anyE_exists_all fsEx root cur rest
      (fun r hr => hall r (by simp [hr])) hcur
    simp only [anyE]
    have heq : equivalentE (fsEx cur) (fsEx (normalizePath (root ++ rel)))
        cur (normalizePath (root ++ rel)) = .ok (decide (cur = normalizePath (root ++ rel))) := by
      simp [equivalentE, hcur, h1]
    rw [heq]
    cases hdec : decide (cur = normalizePath (root ++ rel)) with
    | true => simp [List.any_cons, hdec]
    | false =>
      simp only [List.any_cons, hdec, Bool.false_or]
      exact hrest

/-- Lemma: `compress` with a successful open, rewritten through the pure
characterizations of its two passes and the extra phase. -/
theorem compress_eq (c : Ctx) (tree : FsForest) (extras : List ExtraFile) :
    compress c true tree extras =
      (match dryForest c [] tree with
       | .error e => .error e
       | .ok nTree =>
         match namesForest c [] tree with
         | .error e => .error e
         | .ok p =>
           .ok ⟨false, extras.length + nTree, p.2 + extraCount c extras,
                p.1 ++ extraNames c extras,
                noteSeq (extras.length + nTree) 0 (p.2 + extraCount c extras)⟩) := by
  cases hd : dryForest c [] tree with
  | error e =>
    have h0 : compress c true tree extras =
        (match dryForest c [] tree with
         | .error e => .error e
         | .ok nTree =>
           match liveForest c (extras.length + nTree) [] ⟨0, [], []⟩ tree with
           | .error e => .error e
           | .ok st =>
             .ok ⟨false, extras.length + nTree,
                  (extras.foldl (extraStep c (extras.length + nTree)) st).processed,
                  (extras.foldl (extraStep c (extras.length + nTree)) st).entries,
                  (extras.foldl (extraStep c (extras.length + nTree)) st).notes⟩) := rfl
    rw [h0, hd]
  | ok n =>
    cases hn : namesForest c [] tree with
    | error e =>
      have h0 : compress c true tree extras =
          (match liveForest c (extras.length + n) [] ⟨0, [], []⟩ tree with
           | .error e => .error e
           | .ok st =>
             .ok ⟨false, extras.length + n,
                  (extras.foldl (extraStep c (extras.length + n)) st).processed,
                  (extras.foldl (extraStep c (extras.length + n)) st).entries,
                  (extras.foldl (extraStep c (extras.length + n)) st).notes⟩) := by
        have h1 : compress c true tree extras =
            (match dryForest c [] tree with
             | .error e => .error e
             | .ok nTree =>
               match liveForest c (extras.length + nTree) [] ⟨0, [], []⟩ tree with
               | .error e => .error e
               | .ok st =>
                 .ok ⟨false, extras.length + nTree,
                      (extras.foldl (extraStep c (extras.length + nTree)) st).processed,
                      (extras.foldl (extraStep c (extras.length + nTree)) st).entries,
                      (extras.foldl (extraStep c (extras.length + nTree)) st).notes⟩) := rfl
        rw [h1, hd]
      rw [h0, liveForest_decomp c (extras.length + n) tree [] ⟨0, [], []⟩, hn]
    | ok p => rw [compress_ok c tree extras n p hd hn]

/-- A successful `compress` run determines the dry count and the pure
name/count pair, and equals their assembled result. -/
theorem compress_char (c : Ctx) (tree : FsForest) (extras : List ExtraFile)
    (r : CompressResult) (hr : compress c true tree extras = .ok r) :
    ∃ n p, dryForest c [] tree = .ok n ∧ namesForest c [] tree = .ok p ∧
      r = ⟨false, extras.length + n, p.2 + extraCount c extras,
           p.1 ++ extraNames c extras,
           noteSeq (extras.length + n) 0 (p.2 + extraCount c extras)⟩ := by
  rw [compress_eq] at hr
  cases hd : dryForest c [] tree with
  | error e => rw [hd] at hr; cases hr
  | ok n =>
    rw [hd] at hr
    cases hn : namesForest c [] tree with
    | error e => rw [hn] at hr; cases hr
    | ok p =>
      rw [hn] at hr
      cases hr
      exact ⟨n, p, rfl, rfl, rfl⟩

/-- With an empty ignore set, `compress` always succeeds, with the pure
names and counts. -/
theorem compress_nil_ignore (c : Ctx) (h : c.ignoreSet = []) (tree : FsForest)
    (extras : List ExtraFile) :
    compress c true tree extras =
      .ok ⟨false, extras.length + countFilesForest tree,
           (pureNamesForest c [] tree).2 + extraCount c extras,
           (pureNamesForest c [] tree).1 ++ extraNames c extras,
           noteSeq (extras.length + countFilesForest tree) 0
             ((pureNamesForest c [] tree).2 + extraCount c extras)⟩ :=
  compress_ok c tree extras _ _ (dryForest_nil c h tree []) (namesForest_nil c h tree [])

/-- For nonempty and head-benign component lists, the string test "joined
path starts with `..`" coincides with "the first component is `..`". -/
theorem dotDotPre_joinPath (nrm : PathC) (hne : joinPath nrm ≠ "")
    (hh : nrm.headD "" = ".." ∨ ¬ dotDotPre (nrm.headD "")) :
    (joinPath nrm = "" ∨ dotDotPre (joinPath nrm)) ↔ nrm.headD "" = ".." := by
  cases nrm with
  | nil => exact absurd rfl hne
  | cons x xs =>
    cases xs with
    | nil =>
      show (x = "" ∨ dotDotPre x) ↔ x = ".."
      constructor
      · rintro (h0 | hdd)
        · exact absurd h0 hne
        · rcases hh with h | h
          · exact h
          · exact absurd hdd h
      · intro hx
        subst hx
        exact Or.inr ⟨[], rfl⟩
    | cons y ys =>
      show (x ++ "/" ++ joinPath (y :: ys) = "" ∨
            dotDotPre (x ++ "/" ++ joinPath (y :: ys))) ↔ x = ".."
      have hdata : (x ++ "/" ++ joinPath (y :: ys)).data =
          x.data ++ '/' :: (joinPath (y :: ys)).data := by
        simp [String.data_append]
      constructor
      · rintro (h0 | hdd)
        · rw [String.ext_iff, hdata] at h0
          simp at h0
        · rcases hh with h | h
          · exact h
          · exfalso
            obtain ⟨t, ht⟩ := hdd
            rw [hdata] at ht
            apply h
            show dotDotPre x
            cases hx : x.data with
            | nil => rw [hx] at ht; simp at ht
            | cons a as =>
              cases as with
              | nil => rw [hx] at ht; simp at ht
              | cons b bs =>
                rw [hx] at ht
                simp at ht
                obtain ⟨ha, hb, -⟩ := ht
                exact ⟨bs, by rw [hx, ← ha, ← hb]; rfl⟩
      · intro hx
        subst hx
        refine Or.inr ⟨'/' :: (joinPath (y :: ys)).data, ?_⟩
        rw [hdata]

/-! ### Claims -/

/-- C1: In the rename-zip mode, once the source directory has been renamed to
the new name, the rename back to the original name is attempted after the
Archive Builder finishes on every non-crashing exit path — also when
`zip_open` failed and zero entries were archived; if the restore rename
fails, the directory stays under the new name, the manual-remediation warning
is printed (never silently swallowed), and the run still reports success for
the archiving step: the completion line is printed and the exit status is 0. -/
theorem C1_rename_restore (fsEx : PathC → Bool) (cwd dirArg : PathC) (p : RzParams)
    (h1 : p.originalExists = true) (h2 : p.originalIsDir = true)
    (h3 : newNameValid p.newName = true) (h4 : p.renamedTargetExists = false)
    (h5 : p.renameOk = true) :
    (renameZipRun fsEx cwd dirArg p).map
        (fun r => (r.exitCode, r.restoreAttempted, r.restored, r.warningPrinted,
                   r.completionPrinted, r.dirUnderNewName)) =
      .ok (0, true, p.restoreOk, !p.restoreOk, true, !p.restoreOk) := by
  have hcomp : ∃ r, compress
      ⟨fsEx, (normalizePath (cwd ++ dirArg)).dropLast ++ [p.newName],
       cwd ++ [p.newName ++ ".zip"], [], p.windowsStyle⟩ p.zipOpenOk p.tree [] = .ok r := by
    cases hz : p.zipOpenOk with
    | false => exact ⟨_, rfl⟩
    | true => exact ⟨_, compress_nil_ignore _ rfl p.tree []⟩
  obtain ⟨r, hr⟩ := hcomp
  simp [renameZipRun, h1, h2, h3, h4, h5, hr, Except.map]

/-- C1 witness: a concrete rename-zip run whose restore rename fails: the
restore is attempted, the warning is printed, the directory stays under the
new name, and the run exits 0 with the completion line. -/
theorem C1_witness :
    (renameZipRun (fun _ => false) ["h"] ["d"]
        ⟨true, true, "bar", false, true, false, true, false, .nil⟩).map
        (fun r => (r.exitCode, r.restoreAttempted, r.restored, r.warningPrinted,
                   r.completionPrinted, r.dirUnderNewName)) =
      .ok (0, true, false, true, true, true) :=
  C1_rename_restore (fun _ => false) ["h"] ["d"]
    ⟨true, true, "bar", false, true, false, true, false, .nil⟩ rfl rfl (by decide) rfl rfl

/-- C2 (amended): for every directory tree none of whose nodes is
filesystem-identical to the destination archive path, archived with empty
ignore and extra lists and without `windows_style`, the archive contains
exactly one entry per node of the tree, in traversal order — directories as
their relative path with a trailing slash, files as their relative path with
forward slashes — and the processed count is the number of regular files. -/
theorem C2_entries_processed (c : Ctx) (tree : FsForest)
    (hIgn : c.ignoreSet = []) (hw : c.windowsStyle = false)
    (hz : ∀ q ∈ nodePathsForest c.root tree, q ≠ c.zipPath) :
    (compress c true tree []).map (fun r => (r.entries, r.processed)) =
      .ok (specEntriesForest [] tree, countFilesForest tree) := by
  rw [compress_ok c tree [] _ _ (dryForest_nil c hIgn tree []) (namesForest_nil c hIgn tree [])]
  have hp := pureNamesForest_spec c hw tree []
    (by intro q hq'; exact hz q (by simpa using hq'))
  simp [Except.map, hp, extraNames, extraCount, extraSurvives]

/-- C2 counterexample: when the destination archive lies inside the tree
(the file node is filesystem-identical to the zip path, the situation created
by `zip_open` when the archive is written into the archived directory), that
node yields no entry and no processed count, while the claim demands one
entry per node: the archive is empty although the tree has one node and one
regular file. -/
theorem C2_counterexample :
    (compress ⟨fun _ => true, ["r"], ["r", "out.zip"], [], false⟩ true
        (.cons (.file "out.zip") .nil) []).map (fun r => (r.entries, r.processed)) =
      .ok ([], 0) ∧
    specEntriesForest [] (.cons (.file "out.zip") .nil) = ["out.zip"] ∧
    countFilesForest (.cons (.file "out.zip") .nil) = 1 :=
  ⟨rfl, rfl, rfl⟩

/-- C2 witness: a two-level tree archived with empty ignore/extra lists:
entries are `a`, `d/`, `d/b` and processed is 2. -/
theorem C2_witness :
    (compress ⟨fun _ => false, ["r"], ["z"], [], false⟩ true
        (.cons (.file "a") (.cons (.dir "d" (.cons (.file "b") .nil)) .nil)) []).map
        (fun r => (r.entries, r.processed)) =
      .ok (["a", "d/", "d/b"], 2) :=
  C2_entries_processed ⟨fun _ => false, ["r"], ["z"], [], false⟩
    (.cons (.file "a") (.cons (.dir "d" (.cons (.file "b") .nil)) .nil)) rfl rfl (by decide)

/-- C3 (amended): the progress total is fixed by the dry pass before any
entry is written and equals the number of extra files plus the number of
regular files in the tree that survive ignore-filtering — with no exclusion
of files filesystem-identical to the destination archive path (the dry pass
performs no such comparison). -/
theorem C3_total (c : Ctx) (tree : FsForest) (extras : List ExtraFile)
    (ign : PathC → Bool)
    (hOr : ∀ q, should_ignore c.fsEx c.root q c.ignoreSet = .ok (ign q))
    (r : CompressResult) (hr : compress c true tree extras = .ok r) :
    r.total = extras.length + eligibleNoZipForest ign c.root tree := by
  have hd := dryForest_oracle c ign hOr tree []
  rw [List.append_nil] at hd
  obtain ⟨n, p, hd', hn, rfl⟩ := compress_char c tree extras r hr
  rw [hd'] at hd
  cases hd
  rfl

/-- C3 counterexample: with the destination archive inside the tree, the dry
pass counts it (total = 1) although the claim-worded eligible count excludes
destination-identical files (0): the code's total is not the claimed one. -/
theorem C3_counterexample :
    (compress ⟨fun _ => true, ["r"], ["r", "out.zip"], [], false⟩ true
        (.cons (.file "out.zip") .nil) []).map (fun r => r.total) = .ok 1 ∧
    eligibleZipForest (fun _ => false) ["r", "out.zip"] ["r"]
      (.cons (.file "out.zip") .nil) = 0 :=
  ⟨rfl, rfl⟩

/-- C3 witness: a one-file tree with no extras: the recorded total is
`0 + 1`, the spec-worded surviving-file count. -/
theorem C3_witness :
    (CompressResult.mk false 1 1 ["a"] [100]).total =
      List.length ([] : List ExtraFile) +
        eligibleNoZipForest (fun _ => false) ["r"] (.cons (.file "a") .nil) :=
  C3_total ⟨fun _ => false, ["r"], ["z"], [], false⟩ (.cons (.file "a") .nil) []
    (fun _ => false) (fun _ => rfl) ⟨false, 1, 1, ["a"], [100]⟩ rfl

/-- C4 (amended): `make_ignore_set` stores the user-supplied paths unchanged
— its base-directory argument is discarded, so the invocation directory plays
no role in resolution — and each ignore test performed during traversal
resolves the stored path weakly-canonically against the root being archived;
when the candidate and all resolved targets exist, a candidate is excluded
exactly when it is filesystem-identical to one of those root-resolved
targets. -/
theorem C4_resolution (b1 b2 : PathC) (lst : List PathC) (fsEx : PathC → Bool)
    (root cur : PathC)
    (hall : ∀ rel ∈ lst, fsEx (normalizePath (root ++ rel)) = true)
    (hcur : fsEx cur = true) :
    make_ignore_set b1 lst = make_ignore_set b2 lst ∧
    should_ignore fsEx root cur lst =
      .ok (lst.any (fun rel => decide (cur = normalizePath (root ++ rel)))) := by
  refine ⟨rfl, ?_⟩
  cases lst with
  | nil => rfl
  | cons a l =>
    simp only [should_ignore]
    rw [if_neg (by simp)]
    exact anyE_exists_all fsEx root cur (a :: l) hall hcur

/-- C4 counterexample: invocation directory `/a`, archived root `/a/r`,
ignore path `s`, with both `/a/s` and `/a/r/s` existing and distinct: the
code's matcher excludes the candidate `/a/r/s` (resolution against the
root), while the claim's invocation-directory resolution does not match it. -/
theorem C4_counterexample :
    should_ignore (fun p => decide (p ∈ [["a"], ["a", "s"], ["a", "r"], ["a", "r", "s"]]))
        ["a", "r"] ["a", "r", "s"] [["s"]] = .ok true ∧
    claimIgnoreMatch (fun p => decide (p ∈ [["a"], ["a", "s"], ["a", "r"], ["a", "r", "s"]]))
        ["a"] ["a", "r", "s"] [["s"]] = false :=
  ⟨rfl, rfl⟩

/-- C4 witness: the stored set is independent of the base argument, and a
non-matching existing candidate tests false against an existing
root-resolved target. -/
theorem C4_witness :
    make_ignore_set ["x"] [["s"]] = make_ignore_set ["y"] [["s"]] ∧
    should_ignore (fun p => decide (p ∈ [["r", "s"], ["c"]])) ["r"] ["c"] [["s"]] =
      .ok false :=
  C4_resolution ["x"] ["y"] [["s"]] (fun p => decide (p ∈ [["r", "s"], ["c"]]))
    ["r"] ["c"] (by decide) (by decide)

/-- C5 (amended): an empty ignore set yields false with no filesystem
access; but when the candidate or the first canonicalized ignore target does
not exist, the matcher raises a filesystem error (the throwing overload of
`fs::equivalent`) instead of treating the comparison as non-matching. -/
theorem C5_matcher_raises (fsEx : PathC → Bool) (root cur rel : PathC) (rest : List PathC)
    (h : fsEx cur = false ∨ fsEx (normalizePath (root ++ rel)) = false) :
    should_ignore fsEx root cur [] = .ok false ∧
    should_ignore fsEx root cur (rel :: rest) = .error .notFound := by
  refine ⟨rfl, ?_⟩
  simp only [should_ignore]
  rw [if_neg (by simp)]
  have hf : equivalentE (fsEx cur) (fsEx (normalizePath (root ++ rel)))
      cur (normalizePath (root ++ rel)) = .error .notFound := by
    rcases h with h | h <;> simp [equivalentE, h]
  simp only [anyE, hf]

/-- C5 counterexample: an existing candidate tested against a single
non-existent canonicalized ignore target makes the matcher raise, where the
claim demands a non-raising, non-matching comparison. -/
theorem C5_counterexample :
    should_ignore (fun p => decide (p = ["a", "c"])) ["a"] ["a", "c"] [["z"]] =
      .error .notFound := rfl

/-- C5 witness: empty set is false, and a missing first target raises. -/
theorem C5_witness :
    should_ignore (fun p => decide (p = ["b"])) ["r"] ["b"] [] = .ok false ∧
    should_ignore (fun p => decide (p = ["b"])) ["r"] ["b"] [["w"]] = .error .notFound :=
  C5_matcher_raises (fun p => decide (p = ["b"])) ["r"] ["b"] ["w"] [] (Or.inr (by decide))

/-- C6 (amended): if the destination archive cannot be opened for writing,
the build processes zero entries and returns immediately after its
diagnostic; but the run does not abort as a fatal error — main still prints
the normal completion line (reporting zero processed files) and exits with
status 0. -/
theorem C6_open_failure (c : Ctx) (tree : FsForest) (extras : List ExtraFile) :
    zipRun c true false tree extras = .ok ⟨0, true, some ⟨true, 0, 0, [], []⟩⟩ := rfl

/-- C6 counterexample: a concrete run with `zip_open` failing: zero entries
are processed, yet the completion line is printed and the exit status is 0 —
the run does not abort as a fatal error as the claim states. -/
theorem C6_counterexample :
    zipRun ⟨fun _ => false, ["r"], ["out.zip"], [], false⟩ true false
        (.cons (.file "a") .nil) [] =
      .ok ⟨0, true, some ⟨true, 0, 0, [], []⟩⟩ := rfl

/-- C7 (amended): each extra file's entry name is precomputed before
traversal as the invocation-directory-relative path (normalized, forward
slashes) whenever `fs::relative` succeeded and the joined string is nonempty
and does not begin with the two characters `..` — a strictly stronger
fallback condition than "escapes upward", which coincides with it whenever
the first component is `..` itself or does not start with two dots;
otherwise the bare filename is used.  In the extras phase the precomputed
names are opened verbatim: the `windows_style` flag contributes no wrapper
prefix to extra-file names. -/
theorem C7_extra_names (cwd absolute : PathC) (relErr : Bool)
    (hne : joinPath (normalizeRelPath (lexRelative absolute cwd)) ≠ "")
    (hh : (normalizeRelPath (lexRelative absolute cwd)).headD "" = ".." ∨
          ¬ dotDotPre ((normalizeRelPath (lexRelative absolute cwd)).headD ""))
    (c : Ctx) (total : Nat) (st : St) (extras : List ExtraFile) (b : Bool) :
    extraEntryName cwd absolute relErr = claimedExtraEntryName cwd absolute relErr ∧
    (extras.foldl (extraStep c total) st).entries = st.entries ++ extraNames c extras ∧
    extraNames { c with windowsStyle := b } extras = extraNames c extras := by
  refine ⟨?_, ?_, rfl⟩
  · cases relErr with
    | true => rfl
    | false =>
      simp only [extraEntryName, claimedExtraEntryName]
      have hiff := dotDotPre_joinPath (normalizeRelPath (lexRelative absolute cwd)) hne hh
      by_cases hx : (normalizeRelPath (lexRelative absolute cwd)).headD "" = ".."
      · rw [if_pos (hiff.mpr hx), if_pos hx]
      · rw [if_neg (fun hc => hx (hiff.mp hc)), if_neg hx]
  · rw [extraFold_decomp c total extras st]

/-- C7 counterexample: a directory whose name begins with two dots without
being `..`: the relative path `..d/f` exists and does not escape upward, yet
the code falls back to the bare filename `f` while the claim demands
`..d/f`. -/
theorem C7_counterexample :
    extraEntryName ["home"] ["home", "..d", "f"] false = "f" ∧
    claimedExtraEntryName ["home"] ["home", "..d", "f"] false = "..d/f" :=
  ⟨rfl, rfl⟩

/-- C7 witness: a well-behaved relative path `d/f` names the entry `d/f`
under both readings, and the extras phase appends precomputed names
verbatim, independently of `windows_style`. -/
theorem C7_witness :
    extraEntryName ["h"] ["h", "d", "f"] false = claimedExtraEntryName ["h"] ["h", "d", "f"] false ∧
    ([ExtraFile.mk ["e"] "nm" true].foldl
        (extraStep ⟨fun _ => false, ["r"], ["z"], [], false⟩ 0) ⟨0, [], []⟩).entries =
      ([] : List String) ++ extraNames ⟨fun _ => false, ["r"], ["z"], [], false⟩
        [ExtraFile.mk ["e"] "nm" true] ∧
    extraNames { Ctx.mk (fun _ => false) ["r"] ["z"] [] false with windowsStyle := true }
        [ExtraFile.mk ["e"] "nm" true] =
      extraNames ⟨fun _ => false, ["r"], ["z"], [], false⟩ [ExtraFile.mk ["e"] "nm" true] :=
  C7_extra_names ["h"] ["h", "d", "f"] false (by decide) (Or.inr (by decide))
    ⟨fun _ => false, ["r"], ["z"], [], false⟩ 0 ⟨0, [], []⟩ [ExtraFile.mk ["e"] "nm" true] true

/-- C8: during the write pass each archived file increments `processed`, and
the delivered notifications are exactly those at counts that are multiples
of 50 or equal to the total (guarded by a positive total); when the total is
zero no notification is ever emitted and the run completes normally
reporting zero processed. -/
theorem C8_notifications (c : Ctx) (tree : FsForest) (extras : List ExtraFile)
    (r : CompressResult) (hr : compress c true tree extras = .ok r) :
    r.notes = noteSeq r.total 0 r.processed ∧
    (r.total = 0 → r.processed = 0 ∧ r.notes = []) := by
  obtain ⟨n, p, hd, hn, rfl⟩ := compress_char c tree extras r hr
  refine ⟨rfl, ?_⟩
  intro h0
  have h0' : extras.length + n = 0 := h0
  have hk := namesForest_count_le c tree [] n p hd hn
  have hec : extraCount c extras ≤ extras.length := List.length_filter_le _ _
  constructor
  · show p.2 + extraCount c extras = 0
    omega
  · show noteSeq (extras.length + n) 0 (p.2 + extraCount c extras) = []
    rw [h0', noteSeq_total_zero]

/-- C8 witness: a one-file archive: one increment, one notification at
`processed = total = 1`, and the vacuous zero-total case. -/
theorem C8_witness :
    ([100] : List Nat) = noteSeq 1 0 1 ∧
    ((1 : Nat) = 0 → (1 : Nat) = 0 ∧ ([100] : List Nat) = []) :=
  C8_notifications ⟨fun _ => false, ["r"], ["z"], [], false⟩ (.cons (.file "a") .nil) []
    ⟨false, 1, 1, ["a"], [100]⟩ rfl

/-- C9: for every tree, archiving with `windows_style` set yields exactly the
entry list of the run without the flag with every name — files and
directories alike — prefixed by the root's folder name and a slash. -/
theorem C9_windows_wrapping (c : Ctx) (tree : FsForest) (r r' : CompressResult)
    (h : compress { c with windowsStyle := false } true tree [] = .ok r)
    (h' : compress { c with windowsStyle := true } true tree [] = .ok r') :
    r'.entries = r.entries.map (fun s => c.root.getLastD "" ++ "/" ++ s) := by
  obtain ⟨n, p, hd, hn, rfl⟩ := compress_char _ tree [] r h
  obtain ⟨n', p', hd', hn', rfl⟩ := compress_char _ tree [] r' h'
  have hw := namesForest_windows c tree []
  rw [hn, hn'] at hw
  simp only [Except.map] at hw
  cases hw
  simp [extraNames]

/-- C9 witness: a two-level tree archived with and without the flag: the
windows-style entries are the plain ones prefixed with `sub/`. -/
theorem C9_witness :
    (["sub/a", "sub/d/", "sub/d/b"] : List String) =
      (["a", "d/", "d/b"] : List String).map
        (fun s => (["r", "sub"] : PathC).getLastD "" ++ "/" ++ s) :=
  C9_windows_wrapping ⟨fun _ => false, ["r", "sub"], ["z"], [], false⟩
    (.cons (.file "a") (.cons (.dir "d" (.cons (.file "b") .nil)) .nil))
    ⟨false, 2, 2, ["a", "d/", "d/b"], [100]⟩
    ⟨false, 2, 2, ["sub/a", "sub/d/", "sub/d/b"], [100]⟩ rfl rfl

/-- C10 (amended): whenever `compress` invokes the progress callback the
total is strictly positive and each delivered value is the integer floor of
`processed * 100 / total` at a processed count between 1 and the final one
satisfying the notification condition; the processed count never exceeds the
total, and every delivered value lies between 0 and 100 (the floor can be 0,
e.g. at `processed = 50` with a large total, so the claimed lower bound of 1
does not hold). -/
theorem C10_percent (c : Ctx) (tree : FsForest) (extras : List ExtraFile)
    (r : CompressResult) (hr : compress c true tree extras = .ok r) :
    (r.notes = [] ∨ 0 < r.total) ∧
    r.notes = ((List.range' 1 r.processed).filter (progressCond r.total)).map
      (fun q => q * 100 / r.total) ∧
    r.processed ≤ r.total ∧
    r.notes.all (fun x => decide (x ≤ 100)) = true := by
  obtain ⟨n, p, hd, hn, rfl⟩ := compress_char c tree extras r hr
  have hk := namesForest_count_le c tree [] n p hd hn
  have hec : extraCount c extras ≤ extras.length := List.length_filter_le _ _
  have hple : p.2 + extraCount c extras ≤ extras.length + n := by omega
  refine ⟨?_, rfl, hple, ?_⟩
  · rcases Nat.eq_zero_or_pos (extras.length + n) with h0 | h0
    · left
      show noteSeq (extras.length + n) 0 (p.2 + extraCount c extras) = []
      rw [h0, noteSeq_total_zero]
    · right
      exact h0
  · rw [List.all_eq_true]
    intro x hx
    simp only [decide_eq_true_eq]
    simp only [noteSeq, List.mem_map, List.mem_filter] at hx
    obtain ⟨q, ⟨hq1, hq2⟩, rfl⟩ := hx
    rw [List.mem_range'_1] at hq1
    have htpos : 0 < extras.length + n := by
      have h2 := hq2
      simp only [progressCond, Bool.and_eq_true, decide_eq_true_eq] at h2
      exact h2.1
    have hqle : q ≤ extras.length + n := by omega
    calc q * 100 / (extras.length + n)
        ≤ (extras.length + n) * 100 / (extras.length + n) :=
          Nat.div_le_div_right (mul_le_mul_right' hqle 100)
      _ = 100 := Nat.mul_div_cancel_left 100 htpos

mutual
/-- With an empty destination path (outside every node) no file is skipped:
the pure file count of a node equals its regular-file count. -/
theorem pureNames_count_nilZip (c : Ctx) (hz : c.zipPath = []) :
    (t : FsTree) → ∀ relDir, (pureNames c relDir t).2 = countFiles t
  | .file n => fun relDir => by
    simp [pureNames, countFiles, hz, List.append_eq_nil]
  | .dir n cs => fun relDir => by
    simp [pureNames, countFiles, pureNamesForest_count_nilZip c hz cs (relDir ++ [n])]
/-- Lemma `pureNames_count_nilZip` over a forest. -/
theorem pureNamesForest_count_nilZip (c : Ctx) (hz : c.zipPath = []) :
    (ts : FsForest) → ∀ relDir, (pureNamesForest c relDir ts).2 = countFilesForest ts
  | .nil => fun relDir => rfl
  | .cons t ts => fun relDir => by
    simp [pureNamesForest, countFilesForest, pureNames_count_nilZip c hz t relDir,
      pureNamesForest_count_nilZip c hz ts relDir]
end

/-- Lemma: `manyFiles k` holds `k` regular files. -/
theorem countFilesForest_manyFiles : (k : Nat) → countFilesForest (manyFiles k) = k
  | 0 => rfl
  | k + 1 => by
    simp [manyFiles, countFilesForest, countFiles, countFilesForest_manyFiles k,
      Nat.add_comm]

/-- A non-surviving extra binding contributes nothing, however often it is
repeated. -/
theorem extraCount_replicate_skip (c : Ctx) (e : ExtraFile)
    (he : extraSurvives c e = false) :
    (k : Nat) → extraCount c (List.replicate k e) = 0
  | 0 => rfl
  | k + 1 => by
    rw [List.replicate_succ]
    show (List.filter (extraSurvives c) (e :: List.replicate k e)).length = 0
    rw [List.filter_cons_of_neg (by simp [he])]
    exact extraCount_replicate_skip c e he k

/-- C10 counterexample: 50 tree files with 5950 extra bindings that are
skipped at archive time: total is 6000, the 50th file fires a notification
(multiple of 50) with `50 * 100 / 6000 = 0` although processed (50) does not
exceed total (6000) — the claimed range 1..100 is violated by the delivered
value 0. -/
theorem C10_counterexample :
    (compress ⟨fun _ => false, ["r"], [], [], false⟩ true (manyFiles 50)
        (List.replicate 5950 ⟨["x"], "x", false⟩)).map
        (fun r => (r.total, r.processed, r.notes)) = .ok (6000, 50, [0]) := by
  have hd := dryForest_nil ⟨fun _ => false, ["r"], [], [], false⟩ rfl (manyFiles 50) []
  have hn := namesForest_nil ⟨fun _ => false, ["r"], [], [], false⟩ rfl (manyFiles 50) []
  rw [compress_ok _ (manyFiles 50) _ _ _ hd hn]
  have hcount : (pureNamesForest ⟨fun _ => false, ["r"], [], [], false⟩ []
      (manyFiles 50)).2 = 50 := by
    rw [pureNamesForest_count_nilZip _ rfl (manyFiles 50) [], countFilesForest_manyFiles]
  have hec : extraCount ⟨fun _ => false, ["r"], [], [], false⟩
      (List.replicate 5950 ⟨["x"], "x", false⟩) = 0 :=
    extraCount_replicate_skip ⟨fun _ => false, ["r"], [], [], false⟩
      ⟨["x"], "x", false⟩ rfl 5950
  simp only [Except.map, hcount, hec, countFilesForest_manyFiles, List.length_replicate]
  rfl

/-- C10 witness: a one-file archive: the single delivered value 100 arises at
`processed = 1` against total 1 and lies within 0..100. -/
theorem C10_witness :
    (([100] : List Nat) = [] ∨ 0 < (1 : Nat)) ∧
    ([100] : List Nat) =
      ((List.range' 1 1).filter (progressCond 1)).map (fun q => q * 100 / 1) ∧
    (1 : Nat) ≤ 1 ∧
    ([100] : List Nat).all (fun x => decide (x ≤ 100)) = true :=
  C10_percent ⟨fun _ => false, ["r"], ["z"], [], false⟩ (.cons (.file "a") .nil) []
    ⟨false, 1, 1, ["a"], [100]⟩ rfl

end Ziptool
